import Mathlib

/-!
Verification development for the tmdb_agent repository.

Shallow embeddings of:
- the text normalizer and semantic cache read path (tmdb_agent/vectordb_cache.py),
- the exact-match sqlite cache (tmdb_agent/base_search.py, tmdb_agent/location_search.py),
- the tool executor trigger/consume/finish machinery and the wait-hint timer
  race (tmdb_agent/langchain_openai_voice/__init__.py, VoiceToolExecutor),
- the per-event dispatch of the session loop (OpenAIVoiceReactAgent.aconnect),
- the stream merger interface (amerge; its implementation module .utils is not
  part of the repository sources, so it is modelled from the spec).
-/

/-! ## Text normalization (vectordb_cache.normalize_text) -/

/-- Models Python str.lower on the character ranges this development
exercises: ASCII capital letters and fullwidth capital letters map to their
lowercase forms 32 code points higher; every other character is fixed. -/
def pyLower (c : Char) : Char :=
  if 'A' ≤ c ∧ c ≤ 'Z' then Char.ofNat (c.toNat + 32)
  else if 0xFF21 ≤ c.toNat ∧ c.toNat ≤ 0xFF3A then Char.ofNat (c.toNat + 32)
  else c

/-- Models unicodedata.normalize with form NFKC as a character-wise
compatibility fold on the ranges this development exercises: the fullwidth
ASCII variant block folds onto ASCII and the ideographic space folds onto the
ASCII space; every other character is fixed. -/
def pyNFKC (c : Char) : Char :=
  if 0xFF01 ≤ c.toNat ∧ c.toNat ≤ 0xFF5E then Char.ofNat (c.toNat - 0xFEE0)
  else if c.toNat = 0x3000 then ' '
  else c

/-- Models Python str.isalnum on the ranges this development exercises: ASCII
letters and digits, kana, CJK ideographs, and fullwidth letters and digits. -/
def pyIsAlnum (c : Char) : Bool :=
  decide (('a' ≤ c ∧ c ≤ 'z') ∨ ('A' ≤ c ∧ c ≤ 'Z') ∨ ('0' ≤ c ∧ c ≤ '9') ∨
    (0x3040 ≤ c.toNat ∧ c.toNat ≤ 0x30FF) ∨ (0x4E00 ≤ c.toNat ∧ c.toNat ≤ 0x9FFF) ∨
    (0xFF10 ≤ c.toNat ∧ c.toNat ≤ 0xFF19) ∨ (0xFF21 ≤ c.toNat ∧ c.toNat ≤ 0xFF3A) ∨
    (0xFF41 ≤ c.toNat ∧ c.toNat ≤ 0xFF5A))

/-- Models Python str.isspace on the whitespace characters this development
exercises. -/
def pyIsSpace (c : Char) : Bool :=
  decide (c = ' ' ∨ c = '\t' ∨ c = '\n' ∨ c = '\r' ∨ c.toNat = 0x3000)

/-- The character filter of normalize_text: c.isalnum() or c.isspace(). -/
def keepChar (c : Char) : Bool := pyIsAlnum c || pyIsSpace c

/-- Models Python str.split with no argument (split on whitespace runs,
dropping empty pieces); the accumulator holds the current word reversed. -/
def splitAux : List Char → List Char → List (List Char)
  | [], acc => if acc.isEmpty then [] else [acc.reverse]
  | c :: rest, acc =>
    if pyIsSpace c then
      if acc.isEmpty then splitAux rest [] else acc.reverse :: splitAux rest []
    else splitAux rest (c :: acc)

/-- Models text.split() on a character list. -/
def pySplit (l : List Char) : List (List Char) := splitAux l []

/-- Models joining a word list with single spaces. -/
def pyJoinSpace : List (List Char) → List Char
  | [] => []
  | w :: rest => w ++ rest.flatMap (fun v => ' ' :: v)

/-- Shallow embedding of normalize_text from vectordb_cache.py: lowercase,
NFKC fold, keep only alphanumeric or whitespace characters, then collapse
whitespace by split and join with single spaces. -/
def normalize_text (l : List Char) : List Char :=
  pyJoinSpace (pySplit (((l.map pyLower).map pyNFKC).filter keepChar))

/-- normalize_text on Lean strings. -/
def normalizeStr (s : String) : String := String.mk (normalize_text s.data)

/-- A character whose lower/NFKC image is neither alphanumeric nor whitespace,
hence removed by the filter of normalize_text (punctuation and symbols). -/
def droppedLike (c : Char) : Bool := ! keepChar (pyNFKC (pyLower c))

/-- A character whose lower/NFKC image is whitespace. -/
def spaceLike (c : Char) : Bool := pyIsSpace (pyNFKC (pyLower c))

/-- One elementary difference between two texts that normalize_text is meant
to erase: a case-only difference, a width/compatibility-form-only difference,
an inserted punctuation character, a lengthened whitespace run, a substituted
whitespace character, or an added leading or trailing whitespace character. -/
inductive NormStep : List Char → List Char → Prop
  | case_eq (a b : List Char) : a.map pyLower = b.map pyLower → NormStep a b
  | width_eq (a b : List Char) :
      (a.map pyLower).map pyNFKC = (b.map pyLower).map pyNFKC → NormStep a b
  | punct_ins (u v : List Char) (c : Char) :
      droppedLike c = true → NormStep (u ++ v) (u ++ c :: v)
  | ws_dup (u v : List Char) (w w' : Char) :
      spaceLike w = true → spaceLike w' = true →
      NormStep (u ++ w :: v) (u ++ w :: w' :: v)
  | ws_subst (u v : List Char) (w w' : Char) :
      spaceLike w = true → spaceLike w' = true →
      NormStep (u ++ w :: v) (u ++ w' :: v)
  | ws_lead (v : List Char) (w : Char) :
      spaceLike w = true → NormStep v (w :: v)
  | ws_trail (u : List Char) (w : Char) :
      spaceLike w = true → NormStep u (u ++ [w])

/-- Two texts differ only by letter case, width/compatibility form,
punctuation characters, or whitespace runs: the reflexive-transitive-symmetric
closure of the elementary differences. -/
def NormEquiv : List Char → List Char → Prop :=
  Relation.ReflTransGen (fun a b => NormStep a b ∨ NormStep b a)

/-! ## Semantic cache read path (VectorDBCache) -/

/-- One stored row of the chroma collection as written by VectorDBCache.add:
document id, embedding, the six metadata keys filled in by _make_meta, and the
saved_at / ttl fields. -/
structure CEntry where
  eid : String
  emb : List ℚ
  locale : String
  region : String
  user : String
  provider : String
  version : String
  phash : String
  saved_at : Int
  ttl : Int
deriving DecidableEq

/-- Insert one (id, distance) candidate into a list that is sorted by
ascending distance. -/
def insertByDist (p : String × ℚ) : List (String × ℚ) → List (String × ℚ)
  | [] => [p]
  | q :: rest => if p.2 ≤ q.2 then p :: q :: rest else q :: insertByDist p rest

/-- Sort candidates by ascending distance (nearest first). -/
def sortByDist (l : List (String × ℚ)) : List (String × ℚ) := l.foldr insertByDist []

/-- Models collection.query with n_results = n: every stored row is ranked by
the distance between the query embedding and the row embedding, nearest
first, truncated to n; ids and distances are returned as parallel pairs. The
metadata columns of the rows are not consulted (the code applies no metadata
filter). -/
def queryTop (dist : List ℚ → List ℚ → ℚ) (store : List CEntry)
    (qemb : List ℚ) (n : Nat) : List (String × ℚ) :=
  (sortByDist (store.map (fun e => (e.eid, dist qemb e.emb)))).take n

/-- The candidate scan of search_with_score: best_score starts at 0 and
best_id at none; each candidate whose cosine similarity 1 - distance is
strictly above the running best replaces the pair. -/
def foldBest (cands : List (String × ℚ)) : ℚ × Option String :=
  cands.foldl (fun acc p => if acc.1 < 1 - p.2 then (1 - p.2, some p.1) else acc)
    ((0 : ℚ), none)

/-- Shallow embedding of VectorDBCache.search_with_score. dist models the
chroma distance metric, embed the sentence-transformer embedding of the
normalized text, files the persist-directory value files (files i = none
models a missing i.json), tau the threshold; meta is the metadata argument
and now the optional time override, neither of which the read path uses
(sysNow models int(time.time())). -/
def search_with_score {M V : Type} (dist : List ℚ → List ℚ → ℚ)
    (embed : String → List ℚ) (files : String → Option V) (tau : ℚ)
    (store : List CEntry) (q : String) (meta : M) (now : Option Int)
    (sysNow : Int) : Option V × Bool × ℚ :=
  let _meta := meta
  let _nowv : Int := match now with
    | some n => if n = 0 then sysNow else n
    | none => sysNow
  let cands := queryTop dist store (embed (normalizeStr q)) 5
  let best := foldBest cands
  match best.2 with
  | some b =>
    if tau ≤ best.1 then
      match files b with
      | some v => (some v, true, best.1)
      | none => (none, false, best.1)
    else (none, false, best.1)
  | none => (none, false, best.1)

/-- Shallow embedding of VectorDBCache.search: same candidate retrieval, but
the scan only admits candidates already at or above tau, and only the loaded
value (or none) is returned. -/
def vdbSearch {M V : Type} (dist : List ℚ → List ℚ → ℚ)
    (embed : String → List ℚ) (files : String → Option V) (tau : ℚ)
    (store : List CEntry) (q : String) (meta : M) (now : Option Int)
    (sysNow : Int) : Option V :=
  let _meta := meta
  let _nowv : Int := match now with
    | some n => if n = 0 then sysNow else n
    | none => sysNow
  let cands := queryTop dist store (embed (normalizeStr q)) 5
  let best := cands.foldl
    (fun acc p => if acc.1 < 1 - p.2 ∧ tau ≤ 1 - p.2 then (1 - p.2, some p.1) else acc)
    ((0 : ℚ), none)
  match best.2 with
  | some b => files b
  | none => none

/-- The default similarity threshold DEFAULT_TAU of vectordb_cache.py. -/
def DEFAULT_TAU : ℚ := 9 / 10

/-- The best (maximum) cosine similarity among the retrieved candidates.
Stated from the spec's words, for comparison with what the implementation
reports; not part of the embedding of the code. -/
def specBestCos (cands : List (String × ℚ)) : Option ℚ :=
  match cands.map (fun p => 1 - p.2) with
  | [] => none
  | x :: rest => some (rest.foldl max x)

/-- The projection of a stored row that the read path can observe: its id and
its embedding. -/
def coreOf (e : CEntry) : String × List ℚ := (e.eid, e.emb)

/-! ## Exact-match cache (SimpleSqliteCache) -/

/-- The SqliteDict backing store modelled as an association list, newest
binding first; db[key] = value prepends, lookup takes the first binding. -/
def sqSet {V : Type} (db : List (String × V)) (k : String) (v : V) :
    List (String × V) :=
  (k, v) :: db

/-- Models db.get(key, None) of SimpleSqliteCache.get. -/
def sqGet {V : Type} (db : List (String × V)) (k : String) : Option V :=
  (db.find? (fun p => p.1 == k)).map (fun p => p.2)

/-- A store built by a sequence of set operations starting from empty. -/
def sqBuild {V : Type} (ops : List (String × V)) : List (String × V) :=
  ops.foldl (fun d p => sqSet d p.1 p.2) []

/-! ## VoiceToolExecutor trigger machinery -/

/-- A function-call request as received from the model:
tool name, raw arguments string, and correlation id. -/
structure ToolCallMsg where
  name : String
  arguments : String
  call_id : String
deriving DecidableEq

/-- A function_call_output conversation.item.create event produced by the
executor, reduced to its correlation id and output string. -/
structure OutEvent where
  call_id : String
  output : String
deriving DecidableEq

/-- The executor state: the single trigger future (none = pending, some =
resolved with an unconsumed call), the set of tool tasks currently running,
and the outputs yielded so far. -/
structure ExecSt where
  trigger : Option ToolCallMsg
  running : List ToolCallMsg
  outputs : List OutEvent
deriving DecidableEq

/-- The executor state at session start. -/
def execInit : ExecSt := ⟨none, [], []⟩

/-- Shallow embedding of VoiceToolExecutor.add_tool_call: under the lock, if
the trigger future is already resolved the call raises
ValueError("Tool call adding already in progress"), which propagates to the
caller; otherwise the future is resolved with the call. -/
def addToolCall (s : ExecSt) (c : ToolCallMsg) : Except String ExecSt :=
  if s.trigger.isSome then Except.error "Tool call adding already in progress"
  else Except.ok { s with trigger := some c }

/-- Shallow embedding of one pass of the output_iterator trigger branch
combined with _create_tool_call_task: the resolved trigger is consumed and
the future regenerated; an unknown tool name or an arguments string that does
not parse as JSON raises ValueError, which the iterator catches and converts
into a function_call_output error event correlated by the offending call id;
otherwise the tool task starts running. registry models the keys of
tools_by_name and parse models json.loads on the arguments string (none =
JSONDecodeError). If the trigger is unresolved nothing happens. -/
def consumeStep {A : Type} (registry : List String) (parse : String → Option A)
    (s : ExecSt) : ExecSt :=
  match s.trigger with
  | none => s
  | some c =>
    if registry.contains c.name then
      match parse c.arguments with
      | some _ => { s with trigger := none, running := s.running ++ [c] }
      | none =>
        { s with trigger := none,
                 outputs := s.outputs ++
                   [⟨c.call_id, "Error: failed to parse arguments `" ++
                      c.arguments ++ "`. Must be valid JSON."⟩] }
    else
      { s with trigger := none,
               outputs := s.outputs ++
                 [⟨c.call_id, "Error: tool " ++ c.name ++ " not found. Must be one of " ++
                    String.intercalate ", " registry⟩] }

/-- Shallow embedding of a running tool task resolving: run_tool returns and
the iterator yields its function_call_output event, correlated by the call id
(the serialized result is abstracted as the string r). -/
def finishStep (s : ExecSt) (c : ToolCallMsg) (r : String) : ExecSt :=
  if s.running.contains c then
    { s with running := s.running.erase c, outputs := s.outputs ++ [⟨c.call_id, r⟩] }
  else s

/-- One scheduler step of the executor: a call submission from the session
loop, a pass of the output iterator consuming the trigger, or a running tool
task resolving with a result. -/
inductive ExecStep where
  | add (c : ToolCallMsg)
  | consume
  | finish (c : ToolCallMsg) (r : String)

/-- Run a sequence of executor steps; an exception raised by add_tool_call
propagates (it is caught nowhere in aconnect) and aborts the run. -/
def execSteps {A : Type} (registry : List String) (parse : String → Option A) :
    List ExecStep → ExecSt → Except String ExecSt
  | [], s => Except.ok s
  | ExecStep.add c :: rest, s =>
    match addToolCall s c with
    | Except.error e => Except.error e
    | Except.ok s' => execSteps registry parse rest s'
  | ExecStep.consume :: rest, s => execSteps registry parse rest (consumeStep registry parse s)
  | ExecStep.finish c r :: rest, s => execSteps registry parse rest (finishStep s c r)

/-! ## Wait-hint timer race (run_tool) -/

/-- Client-visible emissions of one run_tool execution. -/
inductive HintEv where
  | intermediate
  | waitHint
  | callOutput
deriving DecidableEq

/-- The joint state of one run_tool execution and its wait-hint timer task:
the wait_hint_sent event flag, whether cancel() has been requested on the
timer task, whether the 2-second sleep has elapsed, whether the timer task
has terminated, whether the tool coroutine has returned, whether the
call-output has been produced, and the emission trace. -/
structure HintSt where
  sentFlag : Bool
  cancelReq : Bool
  sleepDone : Bool
  timerFinished : Bool
  toolDone : Bool
  resultEmitted : Bool
  trace : List HintEv
deriving DecidableEq

/-- State at the start of run_tool: timer task created, intermediate
notification already emitted to the client. -/
def hintInit : HintSt := ⟨false, false, false, false, false, false, [HintEv.intermediate]⟩

/-- Scheduler actions of the run_tool / timer-task system. -/
inductive HintAct where
  | sleepElapse
  | timerRun
  | toolFinish
  | emitResult
deriving DecidableEq

/-- One cooperative-scheduler step, following run_tool: the sleep elapsing;
the timer body running (only if the sleep elapsed, the task has neither
finished nor been cancelled; it emits the hint only when wait_hint_sent is
not set); the tool returning (which sets wait_hint_sent, requests
cancellation and awaits the timer task to completion before anything else);
and the call-output emission (only after the tool returned and the timer task
terminated). Guards that fail leave the state unchanged. -/
def hintStep (s : HintSt) : HintAct → HintSt
  | HintAct.sleepElapse => { s with sleepDone := true }
  | HintAct.timerRun =>
    if s.sleepDone && !s.timerFinished && !s.cancelReq then
      { s with timerFinished := true,
               trace := if s.sentFlag then s.trace else s.trace ++ [HintEv.waitHint] }
    else s
  | HintAct.toolFinish =>
    if s.toolDone then s
    else { s with toolDone := true, sentFlag := true, cancelReq := true,
                  timerFinished := true }
  | HintAct.emitResult =>
    if s.toolDone && s.timerFinished && !s.resultEmitted then
      { s with resultEmitted := true, trace := s.trace ++ [HintEv.callOutput] }
    else s

/-- Run a schedule of steps from the initial run_tool state. -/
def hintExec (acts : List HintAct) : HintSt := acts.foldl hintStep hintInit

/-- No waitHint emission occurs after the callOutput emission in a trace. -/
def noHintAfterResult : List HintEv → Bool
  | [] => true
  | e :: rest =>
    if e = HintEv.callOutput then rest.all (fun x => x ≠ HintEv.waitHint)
    else noHintAfterResult rest

/-! ## Session loop per-event dispatch (OpenAIVoiceReactAgent.aconnect) -/

/-- One entry of a conversation item's content array, reduced to its type
tag. -/
structure ContentPart where
  ctype : String
deriving DecidableEq

/-- The item object of a conversation.item.create message, reduced to the
fields the loop reads: role, content array, and tool output string. -/
structure MsgItem where
  role : Option String := none
  content : Option (List ContentPart) := none
  output : Option String := none
deriving DecidableEq

/-- A decoded event payload, reduced to the fields the loop reads. -/
structure Msg where
  mtype : String
  item : Option MsgItem := none
deriving DecidableEq

/-- Shallow embedding of the is_input_text helper of aconnect: the role must
be one of user/assistant/system; the payload must carry an item with role and
content, the item role must equal the requested role, and some content entry
must have type input_text. -/
def is_input_text (role : String) (d : Msg) : Bool :=
  if ¬ (role = "user" ∨ role = "assistant" ∨ role = "system") then false
  else
    match d.item with
    | some it =>
      match it.content, it.role with
      | some cs, some r =>
        if r ≠ role then false
        else cs.any (fun c => c.ctype == "input_text")
      | _, _ => false
    | none => false

/-- Outbound actions the loop performs for one event: a message sent on the
model channel, a response.create new-turn request (textMode selects the
text-only or text+audio variant), the fixed 0.1-second delay, or a chunk sent
directly to the client. -/
inductive SendAct where
  | modelSend (m : Msg)
  | responseCreate (textMode : Bool)
  | sleepDelay
  | clientChunk (s : String)
deriving DecidableEq

/-- Shallow embedding of the per-event dispatch of the aconnect loop for the
input_mic / input_text / tool_outputs stream keys. dbg models the
DEBUG_BY_WSCAT flag and parseRD models json.loads on the tool output string
followed by the dict check and the return_direct lookup (none = not parseable
as a dict). The output_speaker branch issues no response.create and is not
modelled. -/
def processEvent (dbg : Bool) (parseRD : String → Option Bool)
    (key : String) (d : Msg) : List SendAct :=
  let key' := if key == "input_mic" && (is_input_text "user" d || is_input_text "system" d)
    then "input_text" else key
  if key' == "input_mic" then [SendAct.modelSend d]
  else if key' == "input_text" then
    [SendAct.modelSend d, SendAct.sleepDelay] ++
      (if is_input_text "user" d then [SendAct.responseCreate dbg] else [])
  else if key' == "tool_outputs" then
    [SendAct.modelSend d, SendAct.responseCreate dbg] ++
      (if d.mtype == "conversation.item.create" then
        match d.item with
        | some it =>
          match parseRD (it.output.getD "") with
          | some true => [SendAct.clientChunk (it.output.getD "")]
          | _ => []
        | none => []
      else [])
  else []

/-- The number of response.create new-turn requests among a list of
actions. -/
def countCreate (acts : List SendAct) : Nat :=
  (acts.filter (fun a => match a with
    | SendAct.responseCreate _ => true
    | _ => false)).length

/-! ## Stream merger (amerge) -/

/-- Pointwise update of a labelled family of pending sequences. -/
def updFn {L A : Type} [DecidableEq L] (f : L → List A) (l : L) (xs : List A) :
    L → List A :=
  fun l' => if l' = l then xs else f l'

/-- Modelled from the spec: the stream merger amerge (its implementation
module .utils is absent from the repository sources). A family of labelled
asynchronous sources is merged into one sequence of (label, item) pairs in
true arrival order; the schedule lists, in arrival order, the label of the
source whose next item resolves; an exhausted source contributes nothing. -/
def amergeRun {L A : Type} [DecidableEq L] : List L → (L → List A) → List (L × A)
  | [], _ => []
  | l :: rest, f =>
    match f l with
    | [] => amergeRun rest f
    | x :: xs => (l, x) :: amergeRun rest (updFn f l xs)

/-- The pending items of every source after running a schedule. -/
def mergeState {L A : Type} [DecidableEq L] : List L → (L → List A) → (L → List A)
  | [], f => f
  | l :: rest, f =>
    match f l with
    | [] => mergeState rest f
    | _ :: xs => mergeState rest (updFn f l xs)

/-- The subsequence of merged items carrying a given label. -/
def outFor {L A : Type} [DecidableEq L] (l : L) (out : List (L × A)) : List A :=
  out.filterMap (fun p => if p.1 = l then some p.2 else none)

/-- All items of all sources, each tagged with its source label, source by
source. -/
def taggedAll {L A : Type} (labels : List L) (f : L → List A) : List (L × A) :=
  labels.flatMap (fun l => (f l).map (fun x => (l, x)))

/-! ## Helper lemmas -/

theorem sqGet_build_aux {V : Type} :
    ∀ (ops : List (String × V)) (d : List (String × V)) (k2 : String),
      k2 ∉ ops.map Prod.fst →
      sqGet (ops.foldl (fun d p => sqSet d p.1 p.2) d) k2 = sqGet d k2 := by
  intro ops
  induction ops with
  | nil => intro d k2 _; rfl
  | cons p rest ih =>
    intro d k2 h
    simp only [List.map_cons, List.mem_cons, not_or] at h
    rw [List.foldl_cons, ih _ _ h.2]
    have hne : (p.1 == k2) = false := by
      simp only [beq_eq_false_iff_ne, ne_eq]
      exact fun he => h.1 he.symm
    simp [sqGet, sqSet, List.find?, hne]

/-- C9: on the exact-match cache, set(k, v) followed by get(k) returns v, and
get of any key distinct from every previously set key returns none. -/
theorem claim_C9 {V : Type} (db : List (String × V)) (k : String) (v : V)
    (ops : List (String × V)) (k2 : String) (h : k2 ∉ ops.map Prod.fst) :
    sqGet (sqSet db k v) k = some v ∧ sqGet (sqBuild ops) k2 = none := by
  constructor
  · simp [sqGet, sqSet, List.find?]
  · rw [sqBuild, sqGet_build_aux ops [] k2 h]
    rfl

/-- Witness for C9 at a concrete store. -/
theorem claim_C9_witness :
    sqGet (sqSet ([] : List (String × Nat)) "alpha" 1) "alpha" = some 1 ∧
    sqGet (sqBuild [("alpha", 1), ("beta", 2)]) "gamma" = none :=
  claim_C9 [] "alpha" 1 [("alpha", 1), ("beta", 2)] "gamma" (by decide)

/-- C8: a submitted call whose tool name is not in the registry, or whose
arguments string does not parse as JSON, produces a function_call_output
whose output is an error string and whose call_id is the offending call's id;
the tool never starts running and the executor run continues (no exception
escapes). -/
theorem claim_C8 {A : Type} (registry : List String) (parse : String → Option A)
    (s : ExecSt) (c : ToolCallMsg) (hq : s.trigger = none) :
    (registry.contains c.name = false →
      execSteps registry parse [ExecStep.add c, ExecStep.consume] s =
        Except.ok ⟨none, s.running, s.outputs ++
          [⟨c.call_id, "Error: tool " ++ c.name ++ " not found. Must be one of " ++
             String.intercalate ", " registry⟩]⟩) ∧
    (registry.contains c.name = true → parse c.arguments = none →
      execSteps registry parse [ExecStep.add c, ExecStep.consume] s =
        Except.ok ⟨none, s.running, s.outputs ++
          [⟨c.call_id, "Error: failed to parse arguments `" ++ c.arguments ++
             "`. Must be valid JSON."⟩]⟩) := by
  obtain ⟨tr, run, outs⟩ := s
  cases hq
  constructor
  · intro hreg
    have hmem : c.name ∉ registry := by simpa using hreg
    simp [execSteps, addToolCall, consumeStep, hmem]
  · intro hreg hparse
    have hmem : c.name ∈ registry := by simpa using hreg
    simp [execSteps, addToolCall, consumeStep, hmem, hparse]

/-- A parse function for concrete executor runs: only the empty JSON object
string parses. -/
def simpleParse : String → Option Unit := fun a => if a = "{}" then some () else none

/-- A first concrete tool call for the executor scenarios. -/
def c1Call1 : ToolCallMsg := ⟨"toolA", "{}", "call_1"⟩

/-- A second concrete tool call for the executor scenarios. -/
def c1Call2 : ToolCallMsg := ⟨"toolA", "{}", "call_2"⟩

/-- Witness for C8: an unknown tool name and an unparsable arguments string
each yield a correlated error output, with nothing executed. -/
theorem claim_C8_witness :
    (execSteps ["toolA"] simpleParse
        [ExecStep.add ⟨"nosuch", "{}", "call_9"⟩, ExecStep.consume] execInit =
      Except.ok ⟨none, [],
        [⟨"call_9", "Error: tool " ++ "nosuch" ++ " not found. Must be one of " ++
           String.intercalate ", " ["toolA"]⟩]⟩) ∧
    (execSteps ["toolA"] simpleParse
        [ExecStep.add ⟨"toolA", "oops", "call_8"⟩, ExecStep.consume] execInit =
      Except.ok ⟨none, [],
        [⟨"call_8", "Error: failed to parse arguments `" ++ "oops" ++
           "`. Must be valid JSON."⟩]⟩) :=
  ⟨(claim_C8 ["toolA"] simpleParse execInit ⟨"nosuch", "{}", "call_9"⟩ rfl).1 (by decide),
   (claim_C8 ["toolA"] simpleParse execInit ⟨"toolA", "oops", "call_8"⟩ rfl).2
     (by decide) (by decide)⟩

/-- C1 counterexample: a second tool call submitted after the first call's
trigger was consumed, while the first tool is still running, is accepted with
no error output at all, so two calls occupy Triggered/Running simultaneously
(first equation); a second call submitted while the first is still Triggered
raises an uncorrelated ValueError that propagates instead of emitting an
error output for the second call_id (second equation); in the concurrent
acceptance scenario both calls complete normally (third equation). -/
theorem claim_C1_counterexample :
    (execSteps ["toolA"] simpleParse
        [ExecStep.add c1Call1, ExecStep.consume, ExecStep.add c1Call2] execInit =
      Except.ok ⟨some c1Call2, [c1Call1], []⟩) ∧
    (execSteps ["toolA"] simpleParse
        [ExecStep.add c1Call1, ExecStep.add c1Call2] execInit =
      Except.error "Tool call adding already in progress") ∧
    (execSteps ["toolA"] simpleParse
        [ExecStep.add c1Call1, ExecStep.consume, ExecStep.add c1Call2, ExecStep.consume,
         ExecStep.finish c1Call1 "r1", ExecStep.finish c1Call2 "r2"] execInit =
      Except.ok ⟨none, [], [⟨"call_1", "r1"⟩, ⟨"call_2", "r2"⟩]⟩) :=
  ⟨rfl, rfl, rfl⟩

/-- C1 amended: only the Triggered slot is single-occupancy. A submission
with the trigger free is accepted even while other calls are running; a
submission while the trigger is occupied raises the uncorrelated error
"Tool call adding already in progress" (an exception, not an error output);
and a running call completes normally regardless, its output correlated to
its own call_id. -/
theorem claim_C1_amended (s : ExecSt) (c c0 d : ToolCallMsg) (r : String) :
    (s.trigger = none → addToolCall s c = Except.ok { s with trigger := some c }) ∧
    (s.trigger = some c0 →
      addToolCall s c = Except.error "Tool call adding already in progress") ∧
    (d ∈ s.running → (finishStep s d r).outputs = s.outputs ++ [⟨d.call_id, r⟩]) := by
  refine ⟨fun h => ?_, fun h => ?_, fun h => ?_⟩
  · simp [addToolCall, h]
  · simp [addToolCall, h]
  · simp [finishStep, h]

/-- Witness for C1 amended at concrete executor states. -/
theorem claim_C1_amended_witness :
    (addToolCall execInit c1Call1 = Except.ok { execInit with trigger := some c1Call1 }) ∧
    (addToolCall ⟨some c1Call1, [], []⟩ c1Call2 =
      Except.error "Tool call adding already in progress") ∧
    ((finishStep ⟨none, [c1Call1], []⟩ c1Call1 "r1").outputs =
      [] ++ [⟨"call_1", "r1"⟩]) :=
  ⟨(claim_C1_amended execInit c1Call1 c1Call1 c1Call1 "r1").1 rfl,
   (claim_C1_amended ⟨some c1Call1, [], []⟩ c1Call2 c1Call1 c1Call1 "r1").2.1 rfl,
   (claim_C1_amended ⟨none, [c1Call1], []⟩ c1Call2 c1Call1 c1Call1 "r1").2.2 (by decide)⟩

/-- Traces with no callOutput at all satisfy noHintAfterResult. -/
theorem noHint_of_not_mem {l : List HintEv} (h : HintEv.callOutput ∉ l) :
    noHintAfterResult l = true := by
  induction l with
  | nil => rfl
  | cons e rest ih =>
    simp only [List.mem_cons, not_or] at h
    rw [noHintAfterResult, if_neg (fun he => h.1 he.symm)]
    exact ih h.2

/-- Appending the callOutput to a trace that has none keeps
noHintAfterResult. -/
theorem noHint_append_result {l : List HintEv} (h : HintEv.callOutput ∉ l) :
    noHintAfterResult (l ++ [HintEv.callOutput]) = true := by
  induction l with
  | nil => rfl
  | cons e rest ih =>
    simp only [List.mem_cons, not_or] at h
    rw [List.cons_append, noHintAfterResult, if_neg (fun he => h.1 he.symm)]
    exact ih h.2

/-- Invariant of the run_tool / wait-hint system: before the result is
emitted the trace holds no callOutput; once the result is emitted the timer
task has terminated; once the tool has returned, wait_hint_sent is set,
cancellation was requested, and the timer task has terminated; and the trace
never shows a hint after the result. -/
def HintInv (s : HintSt) : Prop :=
  (s.resultEmitted = false → HintEv.callOutput ∉ s.trace) ∧
  (s.resultEmitted = true → s.timerFinished = true) ∧
  (s.toolDone = true → s.sentFlag = true ∧ s.cancelReq = true ∧ s.timerFinished = true) ∧
  (s.resultEmitted = true → s.toolDone = true) ∧
  noHintAfterResult s.trace = true

theorem hintStep_inv (s : HintSt) (a : HintAct) (h : HintInv s) :
    HintInv (hintStep s a) := by
  obtain ⟨h1, h2, h3, h4, h5⟩ := h
  cases a with
  | sleepElapse => exact ⟨h1, h2, h3, h4, h5⟩
  | timerRun =>
    by_cases hg : (s.sleepDone && !s.timerFinished && !s.cancelReq) = true
    · have hg' := hg
      simp only [Bool.and_eq_true, Bool.not_eq_true'] at hg'
      obtain ⟨⟨hsd, htf⟩, hcr⟩ := hg'
      have hres : s.resultEmitted = false := by
        cases hr : s.resultEmitted
        · rfl
        · rw [h2 hr] at htf; exact absurd htf (by decide)
      have hmem : HintEv.callOutput ∉ s.trace := h1 hres
      have hmem2 : HintEv.callOutput ∉
          (if s.sentFlag = true then s.trace else s.trace ++ [HintEv.waitHint]) := by
        by_cases hsf : s.sentFlag = true
        · rw [if_pos hsf]; exact hmem
        · rw [if_neg hsf]
          simp only [List.mem_append, List.mem_singleton, not_or]
          exact ⟨hmem, by decide⟩
      simp only [hintStep, if_pos hg]
      exact ⟨fun _ => hmem2, fun _ => rfl,
        fun ht => ⟨(h3 ht).1, (h3 ht).2.1, rfl⟩,
        fun hr => absurd (show s.resultEmitted = true from hr) (by simp [hres]),
        noHint_of_not_mem hmem2⟩
    · simp only [hintStep, if_neg hg]
      exact ⟨h1, h2, h3, h4, h5⟩
  | toolFinish =>
    by_cases hd : s.toolDone = true
    · simp only [hintStep, if_pos hd]
      exact ⟨h1, h2, h3, h4, h5⟩
    · simp only [hintStep, if_neg hd]
      exact ⟨fun hr => h1 hr, fun _ => rfl, fun _ => ⟨rfl, rfl, rfl⟩, fun _ => rfl, h5⟩
  | emitResult =>
    by_cases hg : (s.toolDone && s.timerFinished && !s.resultEmitted) = true
    · have hg' := hg
      simp only [Bool.and_eq_true, Bool.not_eq_true'] at hg'
      obtain ⟨⟨htd, htf⟩, hres⟩ := hg'
      simp only [hintStep, if_pos hg]
      exact ⟨fun hc => absurd (show (true : Bool) = false from hc) (by decide),
        fun _ => htf, fun ht => h3 ht,
        fun _ => htd, noHint_append_result (h1 hres)⟩
    · simp only [hintStep, if_neg hg]
      exact ⟨h1, h2, h3, h4, h5⟩

theorem hintExec_inv (acts : List HintAct) : HintInv (hintExec acts) := by
  have hgen : ∀ (l : List HintAct) (s : HintSt), HintInv s → HintInv (l.foldl hintStep s) := by
    intro l
    induction l with
    | nil => intro s hs; exact hs
    | cons a rest ih => intro s hs; exact ih _ (hintStep_inv s a hs)
  refine hgen acts hintInit
    ⟨fun _ => by decide, fun h => absurd h (by decide), fun h => absurd h (by decide),
     fun h => absurd h (by decide), by decide⟩

/-- C3: for every cooperative schedule of the run_tool / wait-hint system,
the wait hint is never emitted after the tool's call-output, and when the
call-output has been produced the timer task was cancelled and awaited to
completion beforehand (it has terminated and its cancellation was requested);
this covers tool durations both below and above the hint delay, since the
schedule decides whether the sleep elapses before the tool returns. -/
theorem claim_C3 (acts : List HintAct) :
    noHintAfterResult (hintExec acts).trace = true ∧
    ((hintExec acts).resultEmitted = true →
      (hintExec acts).toolDone = true ∧ (hintExec acts).cancelReq = true ∧
        (hintExec acts).timerFinished = true) := by
  obtain ⟨h1, h2, h3, h4, h5⟩ := hintExec_inv acts
  exact ⟨h5, fun hr => ⟨h4 hr, ((h3 (h4 hr)).2.1), h2 hr⟩⟩

/-- Witness for C3 on two concrete schedules: the tool finishing before the
sleep elapses (no hint), and the sleep elapsing and the hint firing before
the tool finishes (hint strictly before the result). -/
theorem claim_C3_witness :
    (noHintAfterResult (hintExec [HintAct.toolFinish, HintAct.emitResult]).trace = true ∧
      (hintExec [HintAct.toolFinish, HintAct.emitResult]).toolDone = true ∧
      (hintExec [HintAct.toolFinish, HintAct.emitResult]).cancelReq = true ∧
      (hintExec [HintAct.toolFinish, HintAct.emitResult]).timerFinished = true) ∧
    (noHintAfterResult
        (hintExec [HintAct.sleepElapse, HintAct.timerRun, HintAct.toolFinish,
          HintAct.emitResult]).trace = true ∧
      (hintExec [HintAct.sleepElapse, HintAct.timerRun, HintAct.toolFinish,
          HintAct.emitResult]).toolDone = true ∧
      (hintExec [HintAct.sleepElapse, HintAct.timerRun, HintAct.toolFinish,
          HintAct.emitResult]).cancelReq = true ∧
      (hintExec [HintAct.sleepElapse, HintAct.timerRun, HintAct.toolFinish,
          HintAct.emitResult]).timerFinished = true) :=
  ⟨⟨(claim_C3 [HintAct.toolFinish, HintAct.emitResult]).1,
    (claim_C3 [HintAct.toolFinish, HintAct.emitResult]).2 (by decide)⟩,
   ⟨(claim_C3 [HintAct.sleepElapse, HintAct.timerRun, HintAct.toolFinish,
       HintAct.emitResult]).1,
    (claim_C3 [HintAct.sleepElapse, HintAct.timerRun, HintAct.toolFinish,
       HintAct.emitResult]).2 (by decide)⟩⟩

/-- A payload recognized as input text for a given role carries an item whose
role field equals that role. -/
theorem is_input_text_role (rho : String) (d : Msg)
    (h : is_input_text rho d = true) :
    ∃ it, d.item = some it ∧ it.role = some rho := by
  unfold is_input_text at h
  split at h
  · exact absurd h (by simp)
  · split at h
    · rename_i it heq
      split at h
      · rename_i cs r hc hr0
        split at h
        · exact absurd h (by simp)
        · rename_i hrneq
          refine ⟨it, heq, ?_⟩
          rw [hr0, of_not_not hrneq]
      · exact absurd h (by simp)
    · exact absurd h (by simp)

/-- No payload is simultaneously user input text and system input text. -/
theorem input_text_role_excl (d : Msg) (h : is_input_text "system" d = true) :
    is_input_text "user" d = false := by
  obtain ⟨it, hit, hrole⟩ := is_input_text_role "system" d h
  cases hu : is_input_text "user" d
  · rfl
  · obtain ⟨it', hit', hrole'⟩ := is_input_text_role "user" d hu
    rw [hit] at hit'
    cases hit'
    rw [hrole] at hrole'
    exact absurd (Option.some.inj hrole') (by decide)

/-- Appending actions adds the response.create counts. -/
theorem countCreate_append (a b : List SendAct) :
    countCreate (a ++ b) = countCreate a + countCreate b := by
  simp [countCreate, List.filter_append]

/-- C2: in the aconnect dispatch, a tool-output event produces exactly one
response.create on the model channel; an input event recognized as user input
text produces exactly one response.create (after the fixed delay); an input
event recognized as system input text produces none. -/
theorem claim_C2 (dbg : Bool) (parseRD : String → Option Bool)
    (dtool duser dsys : Msg)
    (hu : is_input_text "user" duser = true)
    (hs : is_input_text "system" dsys = true) :
    countCreate (processEvent dbg parseRD "tool_outputs" dtool) = 1 ∧
    countCreate (processEvent dbg parseRD "input_mic" duser) = 1 ∧
    countCreate (processEvent dbg parseRD "input_mic" dsys) = 0 := by
  refine ⟨?_, ?_, ?_⟩
  · unfold processEvent
    simp only [String.reduceBEq, String.reduceEq, Bool.false_and, Bool.true_and,
      Bool.false_eq_true, if_false, reduceIte]
    rw [countCreate_append]
    have htail : countCreate (if (dtool.mtype == "conversation.item.create") = true then
        match dtool.item with
        | some it =>
          match parseRD (it.output.getD "") with
          | some true => [SendAct.clientChunk (it.output.getD "")]
          | _ => []
        | none => []
      else []) = 0 := by
      split
      · split
        · split <;> rfl
        · rfl
      · rfl
    rw [htail]
    rfl
  · unfold processEvent
    simp only [String.reduceBEq, String.reduceEq, Bool.false_and, Bool.true_and, reduceIte, hu,
      Bool.true_or, Bool.or_true]
    rfl
  · have hu' : is_input_text "user" dsys = false := input_text_role_excl dsys hs
    unfold processEvent
    simp only [String.reduceBEq, String.reduceEq, Bool.false_and, Bool.true_and, reduceIte,
      hu', hs, Bool.true_or, Bool.or_true, Bool.false_or]
    rfl

/-- A concrete user input-text payload. -/
def msgUser : Msg :=
  ⟨"conversation.item.create", some ⟨some "user", some [⟨"input_text"⟩], none⟩⟩

/-- A concrete system input-text payload. -/
def msgSystem : Msg :=
  ⟨"conversation.item.create", some ⟨some "system", some [⟨"input_text"⟩], none⟩⟩

/-- A concrete tool-output payload. -/
def msgTool : Msg :=
  ⟨"conversation.item.create", some ⟨none, none, some "ok"⟩⟩

/-- Witness for C2 at concrete events. -/
theorem claim_C2_witness :
    countCreate (processEvent false (fun _ => none) "tool_outputs" msgTool) = 1 ∧
    countCreate (processEvent false (fun _ => none) "input_mic" msgUser) = 1 ∧
    countCreate (processEvent false (fun _ => none) "input_mic" msgSystem) = 0 :=
  claim_C2 false (fun _ => none) msgTool msgUser msgSystem (by decide) (by decide)

/-- The first component of the candidate scan is the running maximum of the
cosine similarities, clamped below at the initial 0. -/
theorem foldBest_fst_aux (l : List (String × ℚ)) :
    ∀ acc : ℚ × Option String,
      (l.foldl (fun acc p => if acc.1 < 1 - p.2 then (1 - p.2, some p.1) else acc) acc).1 =
      l.foldl (fun a p => max a (1 - p.2)) acc.1 := by
  induction l with
  | nil => intro acc; rfl
  | cons p rest ih =>
    intro acc
    simp only [List.foldl_cons]
    rw [ih]
    congr 1
    by_cases hlt : acc.1 < 1 - p.2
    · rw [if_pos hlt]
      exact (max_eq_right hlt.le).symm
    · rw [if_neg hlt]
      exact (max_eq_left (le_of_not_lt hlt)).symm

theorem foldBest_fst (cands : List (String × ℚ)) :
    (foldBest cands).1 = cands.foldl (fun a p => max a (1 - p.2)) 0 :=
  foldBest_fst_aux cands ((0 : ℚ), none)

/-- When the candidate scan settles on an id, that id belongs to a scanned
candidate whose cosine similarity equals the final best score, unless it was
already carried by the initial accumulator. -/
theorem foldBest_mem_aux (l : List (String × ℚ)) :
    ∀ (acc : ℚ × Option String) (b : String),
      (l.foldl (fun acc p => if acc.1 < 1 - p.2 then (1 - p.2, some p.1) else acc) acc).2 = some b →
      (∃ p ∈ l, p.1 = b ∧ 1 - p.2 =
        (l.foldl (fun acc p => if acc.1 < 1 - p.2 then (1 - p.2, some p.1) else acc) acc).1) ∨
      (acc.2 = some b ∧ acc.1 =
        (l.foldl (fun acc p => if acc.1 < 1 - p.2 then (1 - p.2, some p.1) else acc) acc).1) := by
  induction l with
  | nil => intro acc b h; exact Or.inr ⟨h, rfl⟩
  | cons p rest ih =>
    intro acc b h
    simp only [List.foldl_cons] at h ⊢
    by_cases hlt : acc.1 < 1 - p.2
    · rw [if_pos hlt] at h ⊢
      rcases ih _ b h with ⟨qc, hq, hqb, hqv⟩ | ⟨h2, h3⟩
      · exact Or.inl ⟨qc, List.mem_cons_of_mem p hq, hqb, hqv⟩
      · exact Or.inl ⟨p, List.mem_cons_self p rest, Option.some.inj h2, h3⟩
    · rw [if_neg hlt] at h ⊢
      rcases ih _ b h with ⟨qc, hq, hqb, hqv⟩ | ⟨h2, h3⟩
      · exact Or.inl ⟨qc, List.mem_cons_of_mem p hq, hqb, hqv⟩
      · exact Or.inr ⟨h2, h3⟩

theorem foldBest_mem (cands : List (String × ℚ)) (b : String)
    (h : (foldBest cands).2 = some b) :
    ∃ p ∈ cands, p.1 = b ∧ 1 - p.2 = (foldBest cands).1 := by
  rcases foldBest_mem_aux cands ((0 : ℚ), none) b h with hl | ⟨h2, _⟩
  · exact hl
  · exact Option.noConfusion h2

/-- The reported score of search_with_score is the final best score of the
candidate scan, on every control path. -/
theorem search_with_score_third {M V : Type} (dist : List ℚ → List ℚ → ℚ)
    (embed : String → List ℚ) (files : String → Option V) (tau : ℚ)
    (store : List CEntry) (q : String) (meta : M) (now : Option Int) (sysNow : Int) :
    (search_with_score dist embed files tau store q meta now sysNow).2.2 =
      (foldBest (queryTop dist store (embed (normalizeStr q)) 5)).1 := by
  simp only [search_with_score]
  split
  · split
    · split <;> rfl
    · rfl
  · rfl

/-- A hit of search_with_score pins down the whole control path: the scan
settled on an id at or above tau whose value file loads. -/
theorem search_hit_char {M V : Type} (dist : List ℚ → List ℚ → ℚ)
    (embed : String → List ℚ) (files : String → Option V) (tau : ℚ)
    (store : List CEntry) (q : String) (meta : M) (now : Option Int) (sysNow : Int)
    (hhit : (search_with_score dist embed files tau store q meta now sysNow).2.1 = true) :
    ∃ b, (foldBest (queryTop dist store (embed (normalizeStr q)) 5)).2 = some b ∧
      tau ≤ (foldBest (queryTop dist store (embed (normalizeStr q)) 5)).1 ∧
      ∃ v, files b = some v ∧
        search_with_score dist embed files tau store q meta now sysNow =
          (some v, true, (foldBest (queryTop dist store (embed (normalizeStr q)) 5)).1) := by
  revert hhit
  simp only [search_with_score]
  split
  · rename_i b hb
    split
    · rename_i ht
      split
      · rename_i v hv
        intro _
        exact ⟨b, hb, ht, v, hv, rfl⟩
      · intro hfalse
        exact nomatch hfalse
    · intro hfalse
      exact nomatch hfalse
  · intro hfalse
    exact nomatch hfalse

/-- C5 amended: the score search_with_score returns, on hit and miss alike,
is the best cosine similarity among the retrieved candidates clamped below
at 0 (so an all-negative candidate set reports 0); and on a hit the score is
at least tau, is attained by one of the retrieved candidates, and the
returned value is that candidate's loaded file. -/
theorem claim_C5_amended {M V : Type} (dist : List ℚ → List ℚ → ℚ)
    (embed : String → List ℚ) (files : String → Option V) (tau : ℚ)
    (store : List CEntry) (q : String) (meta : M) (now : Option Int) (sysNow : Int) :
    (search_with_score dist embed files tau store q meta now sysNow).2.2 =
      (queryTop dist store (embed (normalizeStr q)) 5).foldl (fun a p => max a (1 - p.2)) 0 ∧
    ((search_with_score dist embed files tau store q meta now sysNow).2.1 = true →
      tau ≤ (search_with_score dist embed files tau store q meta now sysNow).2.2 ∧
      ∃ p ∈ queryTop dist store (embed (normalizeStr q)) 5,
        1 - p.2 = (search_with_score dist embed files tau store q meta now sysNow).2.2 ∧
        files p.1 = (search_with_score dist embed files tau store q meta now sysNow).1) := by
  constructor
  · rw [search_with_score_third dist embed files tau store q meta now sysNow, foldBest_fst]
  · intro hhit
    obtain ⟨b, hb, ht, v, hv, heq⟩ :=
      search_hit_char dist embed files tau store q meta now sysNow hhit
    obtain ⟨p, hp, hpb, hpv⟩ := foldBest_mem _ b hb
    refine ⟨?_, p, hp, ?_, ?_⟩
    · rw [heq]; exact ht
    · rw [heq]; exact hpv
    · rw [heq, hpb, hv]

/-- Concrete cache store for the C5 counterexample: one stored row. -/
def cexStore : List CEntry := [⟨"id1", [1], "", "", "", "", "", "h1", 0, 3600⟩]

/-- A distance assignment putting the stored row at cosine distance 3/2,
hence cosine similarity -1/2. -/
def cexDist : List ℚ → List ℚ → ℚ := fun _ _ => 3 / 2

/-- A constant embedding for concrete runs. -/
def cexEmbed : String → List ℚ := fun _ => [1]

/-- A value-file assignment with every file missing. -/
def cexFiles : String → Option Nat := fun _ => none

/-- C5 counterexample: when the sole candidate has negative cosine
similarity, search_with_score reports score 0, not the best cosine
similarity -1/2 among the retrieved candidates; so the returned score is not
the best score as the claim states it. -/
theorem claim_C5_counterexample :
    (search_with_score cexDist cexEmbed cexFiles DEFAULT_TAU cexStore
        "q" () none 0).2.2 = 0 ∧
    specBestCos (queryTop cexDist cexStore (cexEmbed (normalizeStr "q")) 5) =
      some (-(1 / 2)) ∧
    (0 : ℚ) ≠ -(1 / 2) := by
  refine ⟨?_, ?_, by norm_num⟩
  · norm_num [search_with_score, foldBest, queryTop, sortByDist, insertByDist, cexStore,
      cexDist, cexEmbed, cexFiles, DEFAULT_TAU]
  · norm_num [specBestCos, queryTop, sortByDist, insertByDist, cexStore, cexDist, cexEmbed]

/-- A distance assignment putting every stored row at cosine distance 1/20,
hence cosine similarity 19/20 above the default threshold. -/
def w5Dist : List ℚ → List ℚ → ℚ := fun _ _ => 1 / 20

/-- A value-file assignment holding a file for id1 only. -/
def w5Files : String → Option Nat := fun i => if i = "id1" then some 42 else none

/-- Witness for C5 amended at a concrete hit. -/
theorem claim_C5_amended_witness :
    (search_with_score w5Dist cexEmbed w5Files DEFAULT_TAU cexStore
        "Query" () none 0).2.2 =
      (queryTop w5Dist cexStore (cexEmbed (normalizeStr "Query")) 5).foldl
        (fun a p => max a (1 - p.2)) 0 ∧
    (DEFAULT_TAU ≤ (search_with_score w5Dist cexEmbed w5Files DEFAULT_TAU cexStore
        "Query" () none 0).2.2 ∧
      ∃ p ∈ queryTop w5Dist cexStore (cexEmbed (normalizeStr "Query")) 5,
        1 - p.2 = (search_with_score w5Dist cexEmbed w5Files DEFAULT_TAU cexStore
          "Query" () none 0).2.2 ∧
        w5Files p.1 = (search_with_score w5Dist cexEmbed w5Files DEFAULT_TAU cexStore
          "Query" () none 0).1) :=
  ⟨(claim_C5_amended w5Dist cexEmbed w5Files DEFAULT_TAU cexStore "Query" () none 0).1,
   (claim_C5_amended w5Dist cexEmbed w5Files DEFAULT_TAU cexStore "Query" () none 0).2
     (by norm_num [search_with_score, foldBest, queryTop, sortByDist, insertByDist, cexStore,
       w5Dist, cexEmbed, w5Files, DEFAULT_TAU])⟩

/-- C10: when the candidate scan settles on an id whose score reaches tau but
whose value file is missing, search_with_score returns an ordinary miss with
the best score preserved: (none, false, best score) — no error, no hit. -/
theorem claim_C10 {M V : Type} (dist : List ℚ → List ℚ → ℚ)
    (embed : String → List ℚ) (files : String → Option V) (tau : ℚ)
    (store : List CEntry) (q : String) (meta : M) (now : Option Int) (sysNow : Int)
    (b : String)
    (hb : (foldBest (queryTop dist store (embed (normalizeStr q)) 5)).2 = some b)
    (ht : tau ≤ (foldBest (queryTop dist store (embed (normalizeStr q)) 5)).1)
    (hf : files b = none) :
    search_with_score dist embed files tau store q meta now sysNow =
      (none, false, (foldBest (queryTop dist store (embed (normalizeStr q)) 5)).1) := by
  simp only [search_with_score, hb]
  rw [if_pos ht, hf]

/-- Witness for C10: the stored row scores 19/20 at or above tau but its
value file is missing; the result is a miss carrying the score. -/
theorem claim_C10_witness :
    search_with_score w5Dist cexEmbed cexFiles DEFAULT_TAU cexStore "q" () none 0 =
      (none, false, (foldBest (queryTop w5Dist cexStore
        (cexEmbed (normalizeStr "q")) 5)).1) :=
  claim_C10 w5Dist cexEmbed cexFiles DEFAULT_TAU cexStore "q" () none 0 "id1"
    (by norm_num [foldBest, queryTop, sortByDist, insertByDist, cexStore, w5Dist, cexEmbed])
    (by norm_num [foldBest, queryTop, sortByDist, insertByDist, cexStore, w5Dist, cexEmbed,
      DEFAULT_TAU])
    rfl

/-- queryTop only reads the id and embedding of each stored row. -/
theorem queryTop_core_eq (dist : List ℚ → List ℚ → ℚ) (store store' : List CEntry)
    (h : store.map coreOf = store'.map coreOf) (qemb : List ℚ) (n : Nat) :
    queryTop dist store qemb n = queryTop dist store' qemb n := by
  unfold queryTop
  have h1 : store.map (fun e => (e.eid, dist qemb e.emb)) =
      (store.map coreOf).map (fun p => (p.1, dist qemb p.2)) := by
    rw [List.map_map]; rfl
  have h2 : store'.map (fun e => (e.eid, dist qemb e.emb)) =
      (store'.map coreOf).map (fun p => (p.1, dist qemb p.2)) := by
    rw [List.map_map]; rfl
  rw [h1, h2, h]

/-- C7: search_with_score and search return identical results for two runs
that differ only in the metadata argument, the now argument, the current
time, or the stored rows' metadata, saved_at and ttl fields; in particular
expired entries are still returned. -/
theorem claim_C7 {M V : Type} (dist : List ℚ → List ℚ → ℚ)
    (embed : String → List ℚ) (files : String → Option V) (tau : ℚ)
    (store store' : List CEntry) (q : String) (m1 m2 : M)
    (now1 now2 : Option Int) (sn1 sn2 : Int)
    (h : store.map coreOf = store'.map coreOf) :
    search_with_score dist embed files tau store q m1 now1 sn1 =
      search_with_score dist embed files tau store' q m2 now2 sn2 ∧
    vdbSearch dist embed files tau store q m1 now1 sn1 =
      vdbSearch dist embed files tau store' q m2 now2 sn2 := by
  constructor
  · simp only [search_with_score, queryTop_core_eq dist store store' h]
  · simp only [vdbSearch, queryTop_core_eq dist store store' h]

/-- A stored row with one set of metadata and freshness fields. -/
def w7Store1 : List CEntry := [⟨"id1", [1], "ja", "JP", "u1", "tavily", "v1", "h1", 100, 60⟩]

/-- The same row with different metadata, a different saved_at far in the
past and a tiny ttl (long expired). -/
def w7Store2 : List CEntry := [⟨"id1", [1], "en", "US", "u2", "other", "v2", "h1", 1, 1⟩]

/-- Witness for C7 at concrete runs differing in metadata, now, current time
and the stored freshness fields. -/
theorem claim_C7_witness :
    search_with_score w5Dist cexEmbed w5Files DEFAULT_TAU w7Store1 "q" "metaA"
        (some 50) 60 =
      search_with_score w5Dist cexEmbed w5Files DEFAULT_TAU w7Store2 "q" "metaB"
        (some 123456789) 999999999 ∧
    vdbSearch w5Dist cexEmbed w5Files DEFAULT_TAU w7Store1 "q" "metaA"
        (some 50) 60 =
      vdbSearch w5Dist cexEmbed w5Files DEFAULT_TAU w7Store2 "q" "metaB"
        (some 123456789) 999999999 :=
  claim_C7 w5Dist cexEmbed w5Files DEFAULT_TAU w7Store1 w7Store2 "q" "metaA" "metaB"
    (some 50) (some 123456789) 60 999999999 (by norm_num [w7Store1, w7Store2, coreOf])

/-- outFor of a merged item carrying the same label keeps the item. -/
theorem outFor_cons_eq {L A : Type} [DecidableEq L] (l : L) (x : A)
    (out : List (L × A)) : outFor l ((l, x) :: out) = x :: outFor l out := by
  simp [outFor]

/-- outFor of a merged item carrying another label skips it. -/
theorem outFor_cons_ne {L A : Type} [DecidableEq L] {l l0 : L} (h : l0 ≠ l)
    (x : A) (out : List (L × A)) : outFor l ((l0, x) :: out) = outFor l out := by
  simp [outFor, h]

/-- Running the merger consumes each source from the front: the merged items
of a label, followed by that label's remaining pending items, reconstruct the
original source sequence. -/
theorem amerge_order {L A : Type} [DecidableEq L] (sched : List L) :
    ∀ (f : L → List A) (l : L),
      outFor l (amergeRun sched f) ++ mergeState sched f l = f l := by
  induction sched with
  | nil => intro f l; rfl
  | cons l0 rest ih =>
    intro f l
    cases hf : f l0 with
    | nil =>
      simp only [amergeRun, mergeState, hf]
      exact ih f l
    | cons x xs =>
      simp only [amergeRun, mergeState, hf]
      by_cases hl : l0 = l
      · subst hl
        rw [outFor_cons_eq, List.cons_append]
        have hupd : updFn f l0 xs l0 = xs := if_pos rfl
        rw [ih (updFn f l0 xs) l0, hupd, hf]
      · rw [outFor_cons_ne hl]
        have hupd : updFn f l0 xs l = f l := if_neg (fun he => hl he.symm)
        rw [ih (updFn f l0 xs) l, hupd]

/-- taggedAll only looks at the sources of the listed labels. -/
theorem taggedAll_congrOn {L A : Type} (labels : List L) (f g : L → List A)
    (h : ∀ l ∈ labels, f l = g l) : taggedAll labels f = taggedAll labels g := by
  induction labels with
  | nil => rfl
  | cons a t ih =>
    simp only [taggedAll, List.flatMap_cons] at ih ⊢
    rw [h a (List.mem_cons_self a t), ih (fun l hl => h l (List.mem_cons_of_mem a hl))]

/-- With distinct labels, the tagged union splits around one label's chunk,
and updating that label's source only replaces its chunk. -/
theorem taggedAll_split {L A : Type} [DecidableEq L] (l0 : L) :
    ∀ (labels : List L), labels.Nodup → l0 ∈ labels → ∀ (f : L → List A),
      ∃ pre post,
        taggedAll labels f = pre ++ (f l0).map (fun x => (l0, x)) ++ post ∧
        ∀ ys, taggedAll labels (updFn f l0 ys) = pre ++ ys.map (fun x => (l0, x)) ++ post := by
  intro labels
  induction labels with
  | nil => intro _ hm; exact absurd hm (List.not_mem_nil l0)
  | cons a t ih =>
    intro hn hm f
    rcases List.mem_cons.mp hm with heq | hmt
    · subst heq
      refine ⟨[], taggedAll t f, by simp [taggedAll, List.flatMap_cons], ?_⟩
      intro ys
      have hnotin : l0 ∉ t := (List.nodup_cons.mp hn).1
      have hupd : updFn f l0 ys l0 = ys := if_pos rfl
      simp only [taggedAll, List.flatMap_cons, hupd, List.nil_append]
      congr 1
      exact taggedAll_congrOn t _ _ (fun l hl =>
        if_neg (fun (he : l = l0) => hnotin (he ▸ hl)))
    · have ha : a ≠ l0 := fun he => (List.nodup_cons.mp hn).1 (he ▸ hmt)
      obtain ⟨pre, post, h1, h2⟩ := ih (List.nodup_cons.mp hn).2 hmt f
      refine ⟨(f a).map (fun x => (a, x)) ++ pre, post, ?_, ?_⟩
      · simp only [taggedAll, List.flatMap_cons] at h1 ⊢
        rw [h1, List.append_assoc, List.append_assoc, List.append_assoc]
      · intro ys
        have hupd : updFn f l0 ys a = f a := if_neg ha
        simp only [taggedAll, List.flatMap_cons, hupd]
        have h2' := h2 ys
        simp only [taggedAll] at h2'
        rw [h2', List.append_assoc, List.append_assoc, List.append_assoc]

/-- The merged output together with the tagged remainder is a permutation of
the tagged union, for any schedule. -/
theorem amerge_perm_aux {L A : Type} [DecidableEq L] (labels : List L)
    (hn : labels.Nodup) :
    ∀ (sched : List L) (f : L → List A), (∀ l, l ∉ labels → f l = []) →
      (amergeRun sched f ++ taggedAll labels (mergeState sched f)).Perm
        (taggedAll labels f) := by
  intro sched
  induction sched with
  | nil => intro f _; simp [amergeRun, mergeState]
  | cons l0 rest ih =>
    intro f hf
    cases hfl : f l0 with
    | nil =>
      simp only [amergeRun, mergeState, hfl]
      exact ih f hf
    | cons x xs =>
      have hl0 : l0 ∈ labels := by
        by_contra hc
        rw [hf l0 hc] at hfl
        exact List.noConfusion hfl
      simp only [amergeRun, mergeState, hfl, List.cons_append]
      have hf' : ∀ l, l ∉ labels → updFn f l0 xs l = [] := by
        intro l hl
        have hne : ¬(l = l0) := fun he => hl (he ▸ hl0)
        rw [show updFn f l0 xs l = if l = l0 then xs else f l from rfl,
          if_neg hne]
        exact hf l hl
      have hperm := ih (updFn f l0 xs) hf'
      obtain ⟨pre, post, h1, h2⟩ := taggedAll_split l0 labels hn hl0 f
      have step1 := hperm.cons (l0, x)
      have step2 : ((l0, x) :: taggedAll labels (updFn f l0 xs)).Perm
          (taggedAll labels f) := by
        rw [h2 xs, h1, hfl, List.map_cons]
        simp only [List.append_assoc, List.cons_append]
        exact List.perm_middle.symm
      exact step1.trans step2

/-- The tagged union of empty sources is empty. -/
theorem taggedAll_empty {L A : Type} (labels : List L) (f : L → List A)
    (h : ∀ l ∈ labels, f l = []) : taggedAll labels f = [] := by
  induction labels with
  | nil => rfl
  | cons a t ih =>
    have ih' := ih (fun l hl => h l (List.mem_cons_of_mem a hl))
    simp only [taggedAll, List.flatMap_cons] at ih' ⊢
    rw [h a (List.mem_cons_self a t), ih']
    rfl

/-- The length of the tagged union is the sum of the source lengths. -/
theorem taggedAll_length {L A : Type} (labels : List L) (f : L → List A) :
    (taggedAll labels f).length = (labels.map (fun l => (f l).length)).sum := by
  induction labels with
  | nil => rfl
  | cons a t ih =>
    simp only [taggedAll, List.flatMap_cons] at ih ⊢
    simp [ih]

/-- C4 (modelled from the spec, the amerge implementation module being absent
from the sources): for a finite family of labelled sources with distinct
labels, any complete merge schedule yields an output that is a permutation of
the union of all items tagged with their source labels, whose length is the
sum of the source lengths, and whose per-label subsequence is exactly that
source in its original order. -/
theorem claim_C4 {L A : Type} [DecidableEq L] (labels : List L) (sched : List L)
    (f : L → List A) (hn : labels.Nodup) (hsupp : ∀ l, l ∉ labels → f l = [])
    (hdrain : ∀ l ∈ labels, mergeState sched f l = []) :
    (amergeRun sched f).Perm (taggedAll labels f) ∧
    (amergeRun sched f).length = (labels.map (fun l => (f l).length)).sum ∧
    (∀ l, outFor l (amergeRun sched f) = f l) := by
  have hdrain' : ∀ l, mergeState sched f l = [] := by
    intro l
    by_cases hl : l ∈ labels
    · exact hdrain l hl
    · have horder := amerge_order sched f l
      rw [hsupp l hl] at horder
      exact (List.append_eq_nil.mp horder).2
  have hperm := amerge_perm_aux labels hn sched f hsupp
  rw [taggedAll_empty labels _ (fun l hl => hdrain l hl), List.append_nil] at hperm
  refine ⟨hperm, ?_, ?_⟩
  · rw [hperm.length_eq, taggedAll_length]
  · intro l
    have horder := amerge_order sched f l
    rw [hdrain' l, List.append_nil] at horder
    exact horder

/-- Witness for C4: two sources labelled by booleans, a complete interleaved
schedule. -/
theorem claim_C4_witness :
    (amergeRun [true, false, true] (fun b : Bool => if b then [1, 2] else [5])).Perm
      (taggedAll [true, false] (fun b : Bool => if b then [1, 2] else [5])) ∧
    (amergeRun [true, false, true] (fun b : Bool => if b then [1, 2] else [5])).length =
      ([true, false].map (fun l =>
        ((fun b : Bool => if b then [1, 2] else [5]) l).length)).sum ∧
    (∀ l, outFor l (amergeRun [true, false, true]
        (fun b : Bool => if b then [1, 2] else [5])) =
      (fun b : Bool => if b then [1, 2] else [5]) l) :=
  claim_C4 [true, false] [true, false, true] (fun b : Bool => if b then [1, 2] else [5])
    (by decide) (by intro l hl; cases l <;> simp at hl) (by decide)

/-- A leading whitespace character is dropped by split. -/
theorem splitAux_lead (s : Char) (hs : pyIsSpace s = true) (y : List Char) :
    splitAux (s :: y) [] = splitAux y [] := by
  simp [splitAux, hs]

/-- Lengthening a whitespace run does not change the split words. -/
theorem splitAux_dup (s s' : Char) (hs : pyIsSpace s = true)
    (hs' : pyIsSpace s' = true) (y : List Char) :
    ∀ (x acc : List Char),
      splitAux (x ++ s :: s' :: y) acc = splitAux (x ++ s :: y) acc := by
  intro x
  induction x with
  | nil =>
    intro acc
    simp [splitAux, hs, hs']
  | cons c x ihx =>
    intro acc
    simp only [List.cons_append, splitAux, List.append_eq]
    by_cases hc : pyIsSpace c = true
    · rw [if_pos hc, if_pos hc]
      by_cases ha : acc.isEmpty = true
      · rw [if_pos ha, if_pos ha, ihx]
      · rw [if_neg ha, if_neg ha, ihx]
    · rw [if_neg hc, if_neg hc, ihx]

/-- Substituting one whitespace character for another does not change the
split words. -/
theorem splitAux_subst (s s' : Char) (hs : pyIsSpace s = true)
    (hs' : pyIsSpace s' = true) (y : List Char) :
    ∀ (x acc : List Char),
      splitAux (x ++ s :: y) acc = splitAux (x ++ s' :: y) acc := by
  intro x
  induction x with
  | nil =>
    intro acc
    simp [splitAux, hs, hs']
  | cons c x ihx =>
    intro acc
    simp only [List.cons_append, splitAux, List.append_eq]
    by_cases hc : pyIsSpace c = true
    · rw [if_pos hc, if_pos hc]
      by_cases ha : acc.isEmpty = true
      · rw [if_pos ha, if_pos ha, ihx]
      · rw [if_neg ha, if_neg ha, ihx]
    · rw [if_neg hc, if_neg hc, ihx]

/-- A trailing whitespace character is dropped by split. -/
theorem splitAux_trail (s : Char) (hs : pyIsSpace s = true) :
    ∀ (x acc : List Char), splitAux (x ++ [s]) acc = splitAux x acc := by
  intro x
  induction x with
  | nil =>
    intro acc
    simp [splitAux, hs]
  | cons c x ihx =>
    intro acc
    simp only [List.cons_append, splitAux, List.append_eq]
    by_cases hc : pyIsSpace c = true
    · rw [if_pos hc, if_pos hc]
      by_cases ha : acc.isEmpty = true
      · rw [if_pos ha, if_pos ha, ihx]
      · rw [if_neg ha, if_neg ha, ihx]
    · rw [if_neg hc, if_neg hc, ihx]

/-- Every elementary difference is erased by normalize_text. -/
theorem normStep_norm_eq {a b : List Char} (h : NormStep a b) :
    normalize_text a = normalize_text b := by
  cases h with
  | case_eq a b hab =>
    unfold normalize_text
    rw [hab]
  | width_eq a b hab =>
    unfold normalize_text
    rw [hab]
  | punct_ins u v c hc =>
    have hk : keepChar (pyNFKC (pyLower c)) = false := by
      simpa [droppedLike] using hc
    unfold normalize_text
    simp [List.map_append, List.filter_append, List.filter_cons, hk]
  | ws_dup u v w w' hw hw' =>
    have hwsp : pyIsSpace (pyNFKC (pyLower w)) = true := hw
    have hwsp' : pyIsSpace (pyNFKC (pyLower w')) = true := hw'
    have hk : keepChar (pyNFKC (pyLower w)) = true := by simp [keepChar, hwsp]
    have hk' : keepChar (pyNFKC (pyLower w')) = true := by simp [keepChar, hwsp']
    unfold normalize_text pySplit
    simp only [List.map_append, List.map_cons, List.filter_append, List.filter_cons,
      hk, hk', if_true]
    rw [splitAux_dup (pyNFKC (pyLower w)) (pyNFKC (pyLower w')) hwsp hwsp'
      ((((v.map pyLower).map pyNFKC).filter keepChar))
      ((((u.map pyLower).map pyNFKC).filter keepChar)) []]
  | ws_subst u v w w' hw hw' =>
    have hwsp : pyIsSpace (pyNFKC (pyLower w)) = true := hw
    have hwsp' : pyIsSpace (pyNFKC (pyLower w')) = true := hw'
    have hk : keepChar (pyNFKC (pyLower w)) = true := by simp [keepChar, hwsp]
    have hk' : keepChar (pyNFKC (pyLower w')) = true := by simp [keepChar, hwsp']
    unfold normalize_text pySplit
    simp only [List.map_append, List.map_cons, List.filter_append, List.filter_cons,
      hk, hk', if_true]
    rw [splitAux_subst (pyNFKC (pyLower w)) (pyNFKC (pyLower w')) hwsp hwsp'
      ((((v.map pyLower).map pyNFKC).filter keepChar))
      ((((u.map pyLower).map pyNFKC).filter keepChar)) []]
  | ws_lead v w hw =>
    have hwsp : pyIsSpace (pyNFKC (pyLower w)) = true := hw
    have hk : keepChar (pyNFKC (pyLower w)) = true := by simp [keepChar, hwsp]
    unfold normalize_text pySplit
    simp only [List.map_cons, List.filter_cons, hk, if_true]
    rw [splitAux_lead (pyNFKC (pyLower w)) hwsp]
  | ws_trail u w hw =>
    have hwsp : pyIsSpace (pyNFKC (pyLower w)) = true := hw
    have hk : keepChar (pyNFKC (pyLower w)) = true := by simp [keepChar, hwsp]
    unfold normalize_text pySplit
    simp only [List.map_append, List.map_cons, List.filter_append, List.filter_cons,
      List.map_nil, List.filter_nil, hk, if_true]
    rw [splitAux_trail (pyNFKC (pyLower w)) hwsp]

/-- C6: any two texts related by the closure of case, width/compatibility,
punctuation-insertion and whitespace-run differences have the same
normalize_text image, hence are embedded identically by the semantic cache. -/
theorem claim_C6 (a b : List Char) (h : NormEquiv a b) :
    normalize_text a = normalize_text b := by
  induction h with
  | refl => rfl
  | tail hab hstep ih =>
    rcases hstep with hstep | hstep
    · exact ih.trans (normStep_norm_eq hstep)
    · exact ih.trans (normStep_norm_eq hstep).symm

/-- Witness for C6: a concrete chain relating "A B" to a fullwidth, doubly
spaced variant through a case step, a whitespace-run step and a width step. -/
theorem claim_C6_witness :
    NormEquiv ['A', ' ', 'B'] ['ａ', ' ', ' ', 'ｂ'] ∧
    normalize_text ['A', ' ', 'B'] = normalize_text ['ａ', ' ', ' ', 'ｂ'] := by
  have s1 : NormStep ['A', ' ', 'B'] ['a', ' ', 'b'] :=
    NormStep.case_eq _ _ (by decide)
  have s2 : NormStep ['a', ' ', 'b'] ['a', ' ', ' ', 'b'] :=
    NormStep.ws_dup ['a'] ['b'] ' ' ' ' (by decide) (by decide)
  have s3 : NormStep ['a', ' ', ' ', 'b'] ['ａ', ' ', ' ', 'ｂ'] :=
    NormStep.width_eq _ _ (by decide)
  have hchain : NormEquiv ['A', ' ', 'B'] ['ａ', ' ', ' ', 'ｂ'] :=
    Relation.ReflTransGen.tail (Relation.ReflTransGen.tail
      (Relation.ReflTransGen.single (Or.inl s1)) (Or.inl s2)) (Or.inl s3)
  exact ⟨hchain, claim_C6 _ _ hchain⟩
